import Mathlib

/-!
Shallow embedding of `dependency_scanner.py` (repository
`neo4j_dependency_scanner`): the import-extraction functions
(`extract_python_imports`, `extract_js_imports`, `extract_imports`) and the
graph-building function (`build_graph`), together with proofs of the spec's
claims about them.

Modelling conventions:
  * Python's `set` of strings is modelled as a duplicate-free `List String`
    (`mergeList` is `set.add`); all set-level statements are about membership,
    never about list order.
  * `path.read_text(...)` and `ast.parse(...)` are external collaborators
    (standard library / filesystem); their outcomes are inputs of the
    embedding: `Except Unit String` for a read (error = `OSError` /
    `UnicodeDecodeError`), `Except Unit (List PyNode)` for read-plus-parse of
    a Python file.  An `Except.error` result of an embedded function models a
    Python exception propagating out of it.
  * The Python AST is abstracted to the three node shapes the scanner's walk
    distinguishes: `ast.Import` (with its alias names), `ast.ImportFrom`
    (with its optional module), and every other node (with its children);
    `ast.walk` visits all of them at any depth.
  * The regex `JS_IMPORT_RE` and `finditer` are embedded as an executable
    backtracking scanner over `List Char` with Python `re` semantics
    (leftmost match, alternation order, greedy `.+` / `[^'"]+`, scan resumes
    at each match's end).
  * The Neo4j store is modelled as lists of File nodes, Module nodes and
    IMPORTS edges; Cypher `MERGE` on a uniqueness-constrained key is
    `mergeList` (create only when no equal entry exists).  A store where
    writes can fail is modelled by `runOps` with a budget of successful
    writes; `Except.error` carries the state committed so far.
-/

namespace DependencyScanner

/-- Python `s.split(".")[0]`: the text before the first dot (the whole
string when no dot occurs). -/
def firstDotSeg (s : String) : String :=
  String.mk (s.toList.takeWhile (fun c => c ≠ '.'))

/-- Python `s.split("/")[0]`: the text before the first slash. -/
def firstSlashSeg (s : String) : String :=
  String.mk (s.toList.takeWhile (fun c => c ≠ '/'))

/-- Python `s.startswith(".")`. -/
def startsDot (s : String) : Bool :=
  match s.toList with
  | [] => false
  | c :: _ => c = '.'

/-- Python `set.add` / Cypher `MERGE` on a unique key over a list-modelled
set: append the element only when it is not already present. -/
def mergeList {α : Type} [DecidableEq α] (l : List α) (x : α) : List α :=
  if x ∈ l then l else l ++ [x]

/-- Abstraction of a Python AST node, keeping exactly what
`extract_python_imports` inspects: `ast.Import` nodes carry their alias
names, `ast.ImportFrom` nodes carry their optional module name (`none` for a
purely relative `from . import x`), and every other node carries its child
nodes. -/
inductive PyNode where
  | imp : List String → PyNode
  | impFrom : Option String → PyNode
  | other : List PyNode → PyNode

mutual

/-- Contributions of one walked node to the scanner's module set, in walk
order: lines 42-47 of the source (`alias.name.split(".")[0]` for `ast.Import`,
`node.module.split(".")[0]` for `ast.ImportFrom` with a module). -/
def pyNodeMods : PyNode → List String
  | .imp names => names.map firstDotSeg
  | .impFrom (some m) => [firstDotSeg m]
  | .impFrom none => []
  | .other children => pyListMods children

/-- Contributions of a list of nodes (a body) and all their descendants. -/
def pyListMods : List PyNode → List String
  | [] => []
  | n :: rest => pyNodeMods n ++ pyListMods rest

end

mutual

/-- Spec-side view: the raw (unnormalized) module names of every `import`
alias and every `from`-import with a present module, at any depth. -/
def pyNodeRaw : PyNode → List String
  | .imp names => names
  | .impFrom (some m) => [m]
  | .impFrom none => []
  | .other children => pyListRaw children

/-- Raw module names of a list of nodes and their descendants. -/
def pyListRaw : List PyNode → List String
  | [] => []
  | n :: rest => pyNodeRaw n ++ pyListRaw rest

end

/-- `extract_python_imports` (source lines 36-48).  Its input is the outcome
of `py_path.read_text` followed by `ast.parse`, both inside the `try` block:
any failure there is caught and the set built so far (empty) is returned. -/
def extract_python_imports (t : Except Unit (List PyNode)) : List String :=
  match t with
  | .error _ => []
  | .ok body => (pyListMods body).foldl mergeList []

/-- Python `\s` on the ASCII whitespace characters. -/
def isWS (c : Char) : Bool :=
  c = ' ' || c = '\t' || c = '\n' || c = '\r' || c = Char.ofNat 11 || c = Char.ofNat 12

/-- A single or double quote, the character class `['"]` of `JS_IMPORT_RE`. -/
def isQuote (c : Char) : Bool :=
  c = '\'' || c = '"'

/-- The tail `\s*['"](?P<mod>[^'"]+)['"]` of `JS_IMPORT_RE`: skip whitespace,
an opening quote, a nonempty run of non-quote characters (the `mod` group),
a closing quote.  Returns the captured group and the rest of the text. -/
def matchTail (l : List Char) : Option (List Char × List Char) :=
  match l.dropWhile isWS with
  | [] => none
  | q :: rest =>
    if isQuote q then
      match rest.takeWhile (fun c => !(isQuote c)), rest.dropWhile (fun c => !(isQuote c)) with
      | [], _ => none
      | _, [] => none
      | mod, _ :: rest2 => some (mod, rest2)
    else none

/-- After the greedy `.+`, the pattern requires `\sfrom\s` and then the
quoted-module tail. -/
def checkAfterMid (l : List Char) : Option (List Char × List Char) :=
  match l with
  | w :: 'f' :: 'r' :: 'o' :: 'm' :: w2 :: rest =>
      if isWS w && isWS w2 then matchTail rest else none
  | _ => none

/-- Backtracking of the greedy `.+`: try the longest middle first (length
`n`), shrinking down to length 1. -/
def tryDown (rest : List Char) : Nat → Option (List Char × List Char)
  | 0 => none
  | j + 1 =>
    match checkAfterMid (rest.drop (j + 1)) with
    | some r => some r
    | none => tryDown rest j

/-- The first alternative `import\s.+\sfrom\s` followed by the tail; `.`
does not match a newline, so the middle is bounded by the newline-free run. -/
def tryImp (l : List Char) : Option (List Char × List Char) :=
  match l with
  | 'i' :: 'm' :: 'p' :: 'o' :: 'r' :: 't' :: c :: rest =>
      if isWS c then tryDown rest (rest.takeWhile (fun x => x ≠ '\n')).length else none
  | _ => none

/-- The second alternative `require\(` followed by the tail. -/
def tryReq (l : List Char) : Option (List Char × List Char) :=
  match l with
  | 'r' :: 'e' :: 'q' :: 'u' :: 'i' :: 'r' :: 'e' :: '(' :: rest => matchTail rest
  | _ => none

/-- A match of `JS_IMPORT_RE` anchored at the head of `l`: the first
alternative is tried (with all its backtracking) before the second. -/
def tryMatch (l : List Char) : Option (List Char × List Char) :=
  match tryImp l with
  | some r => some r
  | none => tryReq l

/-- `finditer` scanning: at each position try an anchored match; on success
emit the `mod` group and resume after the match, otherwise advance one
character.  Every match consumes at least one character, so `fuel =
initial length` never cuts the scan short. -/
def findMatchesAux : Nat → List Char → List (List Char)
  | 0, _ => []
  | _ + 1, [] => []
  | n + 1, c :: rest =>
    match tryMatch (c :: rest) with
    | some (mod, rest2) => mod :: findMatchesAux n rest2
    | none => findMatchesAux n rest

/-- All `mod` groups of `JS_IMPORT_RE.finditer(text)`, in match order. -/
def findMatches (l : List Char) : List (List Char) :=
  findMatchesAux l.length l

/-- The loop body of `extract_js_imports` (source lines 53-57): for one
regex match take the first slash segment and add it unless it starts with a
dot. -/
def jsStep (acc : List String) (mod : List Char) : List String :=
  let name := firstSlashSeg (String.mk mod)
  if startsDot name then acc else mergeList acc name

/-- The whole match loop of `extract_js_imports`. -/
def jsModsOfText (text : String) : List String :=
  (findMatches text.toList).foldl jsStep []

/-- `extract_js_imports` (source lines 50-58).  `js_path.read_text` is NOT
inside a `try`: a read or decode failure propagates to the caller, which the
`Except.error` case records. -/
def extract_js_imports (readResult : Except Unit String) : Except Unit (List String) :=
  match readResult with
  | .error e => .error e
  | .ok text => .ok (jsModsOfText text)

def pyExt : String := ".py"

def jsExt : String := ".js"

def tsExt : String := ".ts"

/-- A source file as the dispatcher sees it: its extension and the outcomes
of the two external operations that may be applied to its content. -/
structure SourceFile where
  suffix : String
  readResult : Except Unit String
  parseResult : Except Unit (List PyNode)

/-- `extract_imports` (source lines 60-66): dispatch on the file extension;
`.py` goes to the Python extractor, `.js` and `.ts` to the JS extractor,
anything else yields the empty set without touching the content. -/
def extract_imports (f : SourceFile) : Except Unit (List String) :=
  if f.suffix = pyExt then .ok (extract_python_imports f.parseResult)
  else if f.suffix = jsExt ∨ f.suffix = tsExt then extract_js_imports f.readResult
  else .ok []

/-- The persisted property graph: File nodes (by `path`), Module nodes (by
`name`) and IMPORTS edges (by the (file path, module name) pair).  Each list
is the store's duplicates-possible node/edge table; `MERGE` under the
uniqueness constraints never creates a second entry with the same key. -/
structure Graph where
  files : List String
  modules : List String
  edges : List (String × String)
deriving DecidableEq

def emptyGraph : Graph := ⟨[], [], []⟩

/-- One `sess.run` of `build_graph`, in source order: the two constraint
statements (lines 76-77), the File merge (line 80), and the per-module query
(lines 83-90) that merges the Module node, the File node and the IMPORTS
edge. -/
inductive GraphOp where
  | constraintFileOp : GraphOp
  | constraintModOp : GraphOp
  | mergeFileOp : String → GraphOp
  | impOp : String → String → GraphOp
deriving DecidableEq

/-- Effect of one write on the store.  `CREATE CONSTRAINT IF NOT EXISTS`
changes no data; `MERGE` on a constrained key is `mergeList`. -/
def applyOp (g : Graph) : GraphOp → Graph
  | .constraintFileOp => g
  | .constraintModOp => g
  | .mergeFileOp p => { g with files := mergeList g.files p }
  | .impOp p m =>
      { files := mergeList g.files p
        modules := mergeList g.modules m
        edges := mergeList g.edges (p, m) }

/-- Insertion into a sorted list, the building block of `sorted`. -/
def insertSorted (x : String) : List String → List String
  | [] => [x]
  | y :: rest => if x ≤ y then x :: y :: rest else y :: insertSorted x rest

/-- Python `sorted(...)` on a set of strings (lexicographic order). -/
def sortStr (l : List String) : List String :=
  l.foldr insertSorted []

/-- The order in which `build_graph` iterates the module set when writing
edges: `sorted(imports)` at line 82. -/
def edgeWriteMods (mods : List String) : List String :=
  sortStr mods

/-- The sequence of store writes one `build_graph(driver, file_node,
imports)` call issues, in source order. -/
def fileOps (path : String) (mods : List String) : List GraphOp :=
  GraphOp.constraintFileOp :: GraphOp.constraintModOp :: GraphOp.mergeFileOp path ::
    (edgeWriteMods mods).map (GraphOp.impOp path)

/-- `build_graph` (source lines 68-90) on a store where every write
succeeds. -/
def build_graph (g : Graph) (path : String) (mods : List String) : Graph :=
  (fileOps path mods).foldl applyOp g

/-- The per-file loop of `main` (source lines 107-112): each file's
extraction result is merged into the store in turn. -/
def scanFiles (g : Graph) : List (String × List String) → Graph
  | [] => g
  | (p, s) :: rest => scanFiles (build_graph g p s) rest

/-- A store whose writes can fail: the first `budget` writes succeed
(each one an atomic autocommit), the next raises.  The error carries the
state committed so far; no committed write is rolled back. -/
def runOps : Graph → List GraphOp → Nat → Except Graph Graph
  | g, [], _ => .ok g
  | g, _ :: _, 0 => .error g
  | g, op :: rest, b + 1 => runOps (applyOp g op) rest b

/-- `build_graph` against the fallible store: the function has no exception
handler, so a failed write surfaces as `Except.error`. -/
def build_graphFallible (g : Graph) (path : String) (mods : List String)
    (budget : Nat) : Except Graph Graph :=
  runOps g (fileOps path mods) budget

/-- Everything present in `g1` is present in `g2` (no committed fact was
lost or overwritten). -/
def graphLe (g1 g2 : Graph) : Prop :=
  (∀ x ∈ g1.files, x ∈ g2.files) ∧ (∀ x ∈ g1.modules, x ∈ g2.modules) ∧
    (∀ e ∈ g1.edges, e ∈ g2.edges)

/-- The store's uniqueness invariants: no duplicate File path, no duplicate
Module name, no duplicate IMPORTS edge. -/
def graphInv (g : Graph) : Prop :=
  g.files.Nodup ∧ g.modules.Nodup ∧ g.edges.Nodup

/-- The characters matched by the tail `\s*['"](?P<mod>[^'"]+)['"]`. -/
def tailShape (ws : List Char) (q1 q2 : Char) (mod : List Char) : List Char :=
  ws ++ q1 :: (mod ++ [q2])

/-- The characters of a full `require(<ws><quote>mod<quote>` match. -/
def reqShape (ws : List Char) (q1 q2 : Char) (mod : List Char) : List Char :=
  'r' :: 'e' :: 'q' :: 'u' :: 'i' :: 'r' :: 'e' :: '(' :: tailShape ws q1 q2 mod

/-- The characters of a full `import<ws>bindings<ws>from<ws><ws*><quote>mod<quote>`
match. -/
def impShape (w1 : Char) (mid : List Char) (w2 w3 : Char) (ws : List Char)
    (q1 q2 : Char) (mod : List Char) : List Char :=
  'i' :: 'm' :: 'p' :: 'o' :: 'r' :: 't' :: w1 ::
    (mid ++ w2 :: 'f' :: 'r' :: 'o' :: 'm' :: w3 :: tailShape ws q1 q2 mod)

/-- Side conditions of the tail: whitespace run, quotes, and a nonempty
quote-free captured group. -/
def GoodTail (ws : List Char) (q1 q2 : Char) (mod : List Char) : Prop :=
  (∀ c ∈ ws, isWS c = true) ∧ isQuote q1 = true ∧ isQuote q2 = true ∧
    mod ≠ [] ∧ ∀ c ∈ mod, isQuote c = false

/-- A chunk of text that is an occurrence of one of the two forms of
`JS_IMPORT_RE`, capturing `mod`. -/
def IsMatchChunk (chunk mod : List Char) : Prop :=
  (∃ ws q1 q2, GoodTail ws q1 q2 mod ∧ chunk = reqShape ws q1 q2 mod) ∨
    (∃ w1 mid w2 w3 ws q1 q2, isWS w1 = true ∧ isWS w2 = true ∧ isWS w3 = true ∧
      mid ≠ [] ∧ (∀ c ∈ mid, c ≠ '\n') ∧ GoodTail ws q1 q2 mod ∧
      chunk = impShape w1 mid w2 w3 ws q1 q2 mod)

/-- Somewhere in `text` one of the two import forms occurs with captured
group `mod`. -/
def IsJsMatch (text mod : List Char) : Prop :=
  ∃ l r chunk, IsMatchChunk chunk mod ∧ text = l ++ chunk ++ r

theorem mergeList_mem_iff {α : Type} [DecidableEq α] {l : List α} {x y : α} :
    y ∈ mergeList l x ↔ y ∈ l ∨ y = x := by
  unfold mergeList
  by_cases h : x ∈ l
  · rw [if_pos h]
    exact ⟨Or.inl, fun hy => hy.elim id fun he => by rw [he]; exact h⟩
  · rw [if_neg h]
    simp [List.mem_append]

theorem mergeList_of_mem {α : Type} [DecidableEq α] {l : List α} {x : α}
    (h : x ∈ l) : mergeList l x = l := by
  unfold mergeList
  rw [if_pos h]

theorem foldl_mergeList_mem {l acc : List String} {x : String} :
    x ∈ l.foldl mergeList acc ↔ x ∈ acc ∨ x ∈ l := by
  induction l generalizing acc with
  | nil => simp
  | cons a t ih =>
      simp only [List.foldl_cons, ih, mergeList_mem_iff, List.mem_cons]
      tauto

mutual

theorem pyNodeMods_eq : ∀ n : PyNode, pyNodeMods n = (pyNodeRaw n).map firstDotSeg
  | .imp names => by simp [pyNodeMods, pyNodeRaw]
  | .impFrom (some m) => by simp [pyNodeMods, pyNodeRaw]
  | .impFrom none => by simp [pyNodeMods, pyNodeRaw]
  | .other children => by
      rw [pyNodeMods, pyNodeRaw]
      exact pyListMods_eq children

theorem pyListMods_eq : ∀ l : List PyNode, pyListMods l = (pyListRaw l).map firstDotSeg
  | [] => by simp [pyListMods, pyListRaw]
  | n :: rest => by
      rw [pyListMods, pyListRaw, List.map_append, pyNodeMods_eq n, pyListMods_eq rest]

end

/-- C1 counterexample: a `.js` file whose `read_text` raises (unreadable or
undecodable content) makes `extract_imports` raise to its caller instead of
returning the empty module set, because `extract_js_imports` has no
exception handler around the read. -/
theorem c1_counterexample :
    extract_imports ⟨jsExt, Except.error (), Except.error ()⟩ = Except.error () := rfl

/-- C1 (amended): extraction failures degrade to the empty set only for the
PythonLike variant — a read or parse failure of a `.py` file yields `[]` and
`extract_imports` always returns a result for `.py` files — while the JSLike
variant never fails on decoded text but propagates a read/decode failure to
its caller. -/
theorem c1_amended_error_boundary :
    (∀ e : Unit, extract_python_imports (Except.error e) = []) ∧
      (∀ f : SourceFile, f.suffix = pyExt → ∃ mods, extract_imports f = Except.ok mods) ∧
      (∀ text : String, extract_js_imports (Except.ok text) = Except.ok (jsModsOfText text)) ∧
      (∀ e : Unit, extract_js_imports (Except.error e) = Except.error e) := by
  refine ⟨fun e => rfl, fun f hf => ?_, fun text => rfl, fun e => rfl⟩
  refine ⟨extract_python_imports f.parseResult, ?_⟩
  unfold extract_imports
  rw [if_pos hf]

theorem c1_amended_witness :
    ∃ mods, extract_imports ⟨pyExt, Except.error (), Except.error ()⟩ = Except.ok mods :=
  c1_amended_error_boundary.2.1 ⟨pyExt, Except.error (), Except.error ()⟩ rfl

/-- C2: over any PythonLike parse tree the extracted set holds exactly the
first dotted segment of every `import` alias and of every `from`-import with
a present module (purely relative from-imports contribute nothing, having no
raw module name); and on a tree for `import os.path` plus
`from os.path import join` the result is exactly the set containing
`os`. -/
theorem c2_python_first_segment :
    (∀ (body : List PyNode) (x : String),
        x ∈ extract_python_imports (Except.ok body) ↔
          ∃ raw ∈ pyListRaw body, firstDotSeg raw = x) ∧
      extract_python_imports
          (Except.ok [PyNode.imp ["os.path"], PyNode.impFrom (some "os.path")]) =
        ["os"] := by
  constructor
  · intro body x
    show x ∈ (pyListMods body).foldl mergeList [] ↔ _
    rw [foldl_mergeList_mem]
    simp [pyListMods_eq, List.mem_map]
  · decide

theorem c2_python_first_segment_witness :
    ∃ raw ∈ pyListRaw [PyNode.imp ["os.path"], PyNode.impFrom (some "os.path")],
      firstDotSeg raw = "os" :=
  (c2_python_first_segment.1
    [PyNode.imp ["os.path"], PyNode.impFrom (some "os.path")] "os").mp (by decide)

/-- C8: a file whose extension is none of `.py`, `.js`, `.ts` yields the
empty module set from the dispatcher, whatever its content, read outcome or
parse outcome (no language parser is consulted). -/
theorem c8_unsupported_extension_noop (f : SourceFile)
    (hpy : f.suffix ≠ pyExt) (hjs : f.suffix ≠ jsExt) (hts : f.suffix ≠ tsExt) :
    extract_imports f = Except.ok [] := by
  unfold extract_imports
  rw [if_neg hpy, if_neg (fun h => h.elim hjs hts)]

theorem c8_unsupported_extension_noop_witness :
    extract_imports ⟨".md", Except.ok "readme text", Except.error ()⟩ = Except.ok [] :=
  c8_unsupported_extension_noop ⟨".md", Except.ok "readme text", Except.error ()⟩
    (by decide) (by decide) (by decide)

/-- C9: the JSLike scan is purely textual — in the input
`// require('x')` the require-form occurs only inside a line comment, yet
the module `x` is still recorded. -/
theorem c9_comment_false_positive :
    jsModsOfText "// require('x')" = ["x"] := by decide

/-- C10: the PythonLike extractor collects imports at any nesting depth —
on a tree whose only import statement sits two levels deep (for example
inside a `try` block inside a function body), the module's first dotted
segment is still extracted. -/
theorem c10_nested_import_collected :
    extract_python_imports
        (Except.ok [PyNode.other [PyNode.other [PyNode.imp ["os.path"]]]]) = ["os"] := by
  decide

theorem graphLe_refl (g : Graph) : graphLe g g :=
  ⟨fun _ h => h, fun _ h => h, fun _ h => h⟩

theorem graphLe_trans {g1 g2 g3 : Graph} (h12 : graphLe g1 g2) (h23 : graphLe g2 g3) :
    graphLe g1 g3 :=
  ⟨fun x h => h23.1 x (h12.1 x h), fun x h => h23.2.1 x (h12.2.1 x h),
    fun e h => h23.2.2 e (h12.2.2 e h)⟩

theorem applyOp_le (g : Graph) (op : GraphOp) : graphLe g (applyOp g op) := by
  cases op with
  | constraintFileOp => exact graphLe_refl g
  | constraintModOp => exact graphLe_refl g
  | mergeFileOp p =>
      exact ⟨fun x h => mergeList_mem_iff.mpr (Or.inl h), fun x h => h, fun e h => h⟩
  | impOp p m =>
      exact ⟨fun x h => mergeList_mem_iff.mpr (Or.inl h),
        fun x h => mergeList_mem_iff.mpr (Or.inl h),
        fun e h => mergeList_mem_iff.mpr (Or.inl h)⟩

theorem foldl_applyOp_le : ∀ (ops : List GraphOp) (g : Graph), graphLe g (ops.foldl applyOp g)
  | [], g => graphLe_refl g
  | op :: rest, g => graphLe_trans (applyOp_le g op) (foldl_applyOp_le rest (applyOp g op))

theorem foldl_impOp_mem : ∀ (l : List String) (g : Graph) (p m : String), m ∈ l →
    m ∈ ((l.map (GraphOp.impOp p)).foldl applyOp g).modules ∧
      (p, m) ∈ ((l.map (GraphOp.impOp p)).foldl applyOp g).edges
  | [], _, _, _, h => absurd h (List.not_mem_nil _)
  | a :: t, g, p, m, h => by
      rw [List.map_cons, List.foldl_cons]
      rcases List.mem_cons.mp h with rfl | hm
      · have hle := foldl_applyOp_le (t.map (GraphOp.impOp p)) (applyOp g (GraphOp.impOp p m))
        constructor
        · exact hle.2.1 m (mergeList_mem_iff.mpr (Or.inr rfl))
        · exact hle.2.2 (p, m) (mergeList_mem_iff.mpr (Or.inr rfl))
      · exact foldl_impOp_mem t (applyOp g (GraphOp.impOp p a)) p m hm

theorem build_graph_mem (g : Graph) (p : String) (mods : List String) :
    p ∈ (build_graph g p mods).files ∧
      ∀ m ∈ edgeWriteMods mods,
        m ∈ (build_graph g p mods).modules ∧ (p, m) ∈ (build_graph g p mods).edges := by
  constructor
  · have hle := foldl_applyOp_le ((edgeWriteMods mods).map (GraphOp.impOp p))
      (applyOp g (GraphOp.mergeFileOp p))
    exact hle.1 p (mergeList_mem_iff.mpr (Or.inr rfl))
  · intro m hm
    exact foldl_impOp_mem (edgeWriteMods mods) (applyOp g (GraphOp.mergeFileOp p)) p m hm

theorem applyOp_mergeFile_noop {g : Graph} {p : String} (h : p ∈ g.files) :
    applyOp g (GraphOp.mergeFileOp p) = g := by
  show { g with files := mergeList g.files p } = g
  rw [mergeList_of_mem h]

theorem applyOp_impOp_noop {g : Graph} {p m : String}
    (hf : p ∈ g.files) (hm : m ∈ g.modules) (he : (p, m) ∈ g.edges) :
    applyOp g (GraphOp.impOp p m) = g := by
  show Graph.mk (mergeList g.files p) (mergeList g.modules m) (mergeList g.edges (p, m)) = g
  rw [mergeList_of_mem hf, mergeList_of_mem hm, mergeList_of_mem he]

theorem foldl_impOp_noop : ∀ (l : List String) (g : Graph) (p : String),
    p ∈ g.files → (∀ m ∈ l, m ∈ g.modules ∧ (p, m) ∈ g.edges) →
    (l.map (GraphOp.impOp p)).foldl applyOp g = g
  | [], _, _, _, _ => rfl
  | a :: t, g, p, hf, hall => by
      rw [List.map_cons, List.foldl_cons,
        applyOp_impOp_noop hf (hall a (List.mem_cons_self a t)).1
          (hall a (List.mem_cons_self a t)).2]
      exact foldl_impOp_noop t g p hf (fun m hm => hall m (List.mem_cons_of_mem a hm))

/-- C4: merging one file's import facts is idempotent — running
`build_graph` a second time with the same (file, module-set) input changes
nothing, from any starting store: every `MERGE` finds its node or edge
already present. -/
theorem c4_build_graph_idempotent (g : Graph) (p : String) (mods : List String) :
    build_graph (build_graph g p mods) p mods = build_graph g p mods := by
  obtain ⟨hf, hmods⟩ := build_graph_mem g p mods
  show (fileOps p mods).foldl applyOp (build_graph g p mods) = build_graph g p mods
  have h1 : (fileOps p mods).foldl applyOp (build_graph g p mods)
      = ((edgeWriteMods mods).map (GraphOp.impOp p)).foldl applyOp
          (applyOp (build_graph g p mods) (GraphOp.mergeFileOp p)) := rfl
  rw [h1, applyOp_mergeFile_noop hf]
  exact foldl_impOp_noop (edgeWriteMods mods) (build_graph g p mods) p hf hmods

theorem mergeList_nodup {α : Type} [DecidableEq α] {l : List α} (h : l.Nodup) (x : α) :
    (mergeList l x).Nodup := by
  unfold mergeList
  by_cases hx : x ∈ l
  · rw [if_pos hx]
    exact h
  · rw [if_neg hx]
    simp [List.nodup_append, h, hx]

theorem applyOp_inv {g : Graph} (h : graphInv g) (op : GraphOp) : graphInv (applyOp g op) := by
  cases op with
  | constraintFileOp => exact h
  | constraintModOp => exact h
  | mergeFileOp p => exact ⟨mergeList_nodup h.1 p, h.2.1, h.2.2⟩
  | impOp p m =>
      exact ⟨mergeList_nodup h.1 p, mergeList_nodup h.2.1 m, mergeList_nodup h.2.2 (p, m)⟩

theorem foldl_applyOp_inv : ∀ (ops : List GraphOp) {g : Graph},
    graphInv g → graphInv (ops.foldl applyOp g)
  | [], _, h => h
  | op :: rest, _, h => foldl_applyOp_inv rest (applyOp_inv h op)

theorem build_graph_inv {g : Graph} (h : graphInv g) (p : String) (mods : List String) :
    graphInv (build_graph g p mods) :=
  foldl_applyOp_inv (fileOps p mods) h

theorem scanFiles_inv : ∀ (calls : List (String × List String)) {g : Graph},
    graphInv g → graphInv (scanFiles g calls)
  | [], _, h => h
  | (p, s) :: rest, _, h => scanFiles_inv rest (build_graph_inv h p s)

/-- C5: after any sequence of Graph Builder runs starting from the empty
store, File paths are unique, Module names are unique, and every (file,
module) pair occurs in at most one IMPORTS edge — however often extraction
ran and however many duplicate module mentions each run carried. -/
theorem c5_graph_uniqueness (calls : List (String × List String)) :
    (scanFiles emptyGraph calls).files.Nodup ∧
      (scanFiles emptyGraph calls).modules.Nodup ∧
      ∀ e : String × String, ¬ (scanFiles emptyGraph calls).edges.Duplicate e := by
  obtain ⟨h1, h2, h3⟩ :=
    scanFiles_inv calls (⟨List.nodup_nil, List.nodup_nil, List.nodup_nil⟩ : graphInv emptyGraph)
  exact ⟨h1, h2, fun e => List.nodup_iff_forall_not_duplicate.mp h3 e⟩

theorem runOps_error_le : ∀ (ops : List GraphOp) (b : Nat) (g g' : Graph),
    runOps g ops b = Except.error g' → graphLe g g'
  | [], _, g, g', h => by
      have h2 : (Except.ok g : Except Graph Graph) = Except.error g' := h
      cases h2
  | op :: rest, 0, g, g', h => by
      have h2 : (Except.error g : Except Graph Graph) = Except.error g' := h
      injection h2 with h3
      rw [← h3]
      exact graphLe_refl g
  | op :: rest, b + 1, g, g', h =>
      graphLe_trans (applyOp_le g op) (runOps_error_le rest b (applyOp g op) g' h)

theorem runOps_error_surfaces : ∀ (ops : List GraphOp) (b : Nat) (g : Graph),
    b < ops.length → ∃ g', runOps g ops b = Except.error g' := by
  intro ops
  induction ops with
  | nil => intro b g h; simp at h
  | cons op rest ih =>
      intro b g h
      cases b with
      | zero => exact ⟨g, rfl⟩
      | succ b2 =>
          have hlt : b2 < rest.length := by
            simp [List.length_cons] at h
            omega
          exact ih b2 (applyOp g op) hlt

/-- C6: a failed store write inside one file's batch surfaces as an error
to the caller (whenever the budget of successful writes is exhausted before
the batch ends, the result is an error, never a silent success), and the
erroring state still contains every fact committed for previously processed
files. -/
theorem c6_write_failure_semantics (prev : List (String × List String))
    (p : String) (mods : List String) (b : Nat) :
    (∀ g' : Graph,
        build_graphFallible (scanFiles emptyGraph prev) p mods b = Except.error g' →
          graphLe (scanFiles emptyGraph prev) g') ∧
      (b < (fileOps p mods).length →
        ∃ g', build_graphFallible (scanFiles emptyGraph prev) p mods b = Except.error g') := by
  constructor
  · intro g' h
    exact runOps_error_le (fileOps p mods) b (scanFiles emptyGraph prev) g' h
  · intro h
    exact runOps_error_surfaces (fileOps p mods) b (scanFiles emptyGraph prev) h

theorem c6_write_failure_semantics_witness :
    graphLe (scanFiles emptyGraph [("a.py", ["json"])])
        (scanFiles emptyGraph [("a.py", ["json"])]) ∧
      ∃ g', build_graphFallible (scanFiles emptyGraph [("a.py", ["json"])])
          "b.js" ["react"] 0 = Except.error g' := by
  constructor
  · exact (c6_write_failure_semantics [("a.py", ["json"])] "b.js" ["react"] 0).1
      (scanFiles emptyGraph [("a.py", ["json"])]) rfl
  · exact (c6_write_failure_semantics [("a.py", ["json"])] "b.js" ["react"] 0).2
      (by simp [fileOps])

theorem insertSorted_perm (x : String) :
    ∀ l : List String, List.Perm (insertSorted x l) (x :: l)
  | [] => List.Perm.refl [x]
  | y :: rest => by
      unfold insertSorted
      by_cases h : x ≤ y
      · rw [if_pos h]
      · rw [if_neg h]
        exact (List.Perm.cons y (insertSorted_perm x rest)).trans (List.Perm.swap x y rest)

theorem insertSorted_sorted (x : String) : ∀ {l : List String},
    l.Sorted (· ≤ ·) → (insertSorted x l).Sorted (· ≤ ·)
  | [], _ => by simp [insertSorted]
  | y :: rest, h => by
      unfold insertSorted
      rcases List.sorted_cons.mp h with ⟨hy, hrest⟩
      by_cases hxy : x ≤ y
      · rw [if_pos hxy]
        refine List.sorted_cons.mpr ⟨?_, h⟩
        intro b hb
        rcases List.mem_cons.mp hb with rfl | hb2
        · exact hxy
        · exact le_trans hxy (hy b hb2)
      · rw [if_neg hxy]
        refine List.sorted_cons.mpr ⟨?_, insertSorted_sorted x hrest⟩
        intro b hb
        rcases List.mem_cons.mp ((insertSorted_perm x rest).mem_iff.mp hb) with rfl | hbr
        · exact le_of_not_le hxy
        · exact hy b hbr

theorem sortStr_sorted : ∀ l : List String, (sortStr l).Sorted (· ≤ ·)
  | [] => List.sorted_nil
  | a :: t => insertSorted_sorted a (sortStr_sorted t)

theorem sortStr_perm : ∀ l : List String, List.Perm (sortStr l) l
  | [] => List.Perm.refl []
  | a :: t => (insertSorted_perm a (sortStr t)).trans (List.Perm.cons a (sortStr_perm t))

/-- C7: the Graph Builder writes the per-module edges in lexicographically
sorted order of module name — the write sequence is sorted, enumerates
exactly the module set, and is the same list for any two runs handed the
same set (even under a different iteration order of the underlying set). -/
theorem c7_edge_write_order (mods : List String) :
    (edgeWriteMods mods).Sorted (· ≤ ·) ∧
      (∀ m, m ∈ edgeWriteMods mods ↔ m ∈ mods) ∧
      ∀ mods2 : List String, mods.Nodup → mods2.Nodup →
        (∀ m, m ∈ mods ↔ m ∈ mods2) → edgeWriteMods mods = edgeWriteMods mods2 := by
  refine ⟨sortStr_sorted mods, fun m => (sortStr_perm mods).mem_iff, ?_⟩
  intro mods2 h1 h2 hmem
  refine List.eq_of_perm_of_sorted ?_ (sortStr_sorted mods) (sortStr_sorted mods2)
  exact ((sortStr_perm mods).trans
    ((List.perm_ext_iff_of_nodup h1 h2).mpr hmem)).trans (sortStr_perm mods2).symm

theorem c7_edge_write_order_witness :
    edgeWriteMods ["react", "lodash"] = edgeWriteMods ["lodash", "react"] :=
  (c7_edge_write_order ["react", "lodash"]).2.2 ["lodash", "react"]
    (by decide) (by decide) (by intro m; simp [List.mem_cons]; tauto)


theorem dropWhile_head_false {α : Type} {p : α → Bool} :
    ∀ {l : List α} {b : α} {t : List α}, List.dropWhile p l = b :: t → p b = false := by
  intro l
  induction l with
  | nil => intro b t h; simp [List.dropWhile] at h
  | cons a rest ih =>
      intro b t h
      rw [List.dropWhile_cons] at h
      cases hpa : p a with
      | true => rw [hpa] at h; simp at h; exact ih h
      | false =>
          rw [hpa] at h
          simp at h
          rw [← h.1]
          exact hpa

theorem matchTail_sound {l mod rest : List Char} (h : matchTail l = some (mod, rest)) :
    ∃ ws q1 q2, GoodTail ws q1 q2 mod ∧ l = tailShape ws q1 q2 mod ++ rest := by
  unfold matchTail at h
  split at h
  · cases h
  · rename_i q rest1 hd
    split at h
    · rename_i hq
      split at h
      · cases h
      · cases h
      · rename_i u1 u2 qc rest2 hdw hne
        injection h with h2
        injection h2 with h3 h4
        refine ⟨l.takeWhile isWS, q, qc, ⟨?_, hq, ?_, ?_, ?_⟩, ?_⟩
        · intro c hc
          exact List.mem_takeWhile_imp hc
        · have hh := dropWhile_head_false hdw
          simpa using hh
        · intro he
          exact hne (h3.trans he)
        · intro c hc
          rw [← h3] at hc
          have hh := List.mem_takeWhile_imp hc
          simpa using hh
        · have hl : l = l.takeWhile isWS ++ (q :: rest1) := by
            rw [← hd, List.takeWhile_append_dropWhile]
          have hr1 : rest1 = mod ++ (qc :: rest2) := by
            rw [← h3, ← hdw, List.takeWhile_append_dropWhile]
          conv_lhs => rw [hl]
          rw [hr1, ← h4]
          simp [tailShape, List.append_assoc]
    · cases h


theorem checkAfterMid_sound {l mod rest : List Char} (h : checkAfterMid l = some (mod, rest)) :
    ∃ wA wB ws q1 q2, isWS wA = true ∧ isWS wB = true ∧ GoodTail ws q1 q2 mod ∧
      l = wA :: 'f' :: 'r' :: 'o' :: 'm' :: wB :: (tailShape ws q1 q2 mod ++ rest) := by
  unfold checkAfterMid at h
  split at h
  · rename_i wA wB rest1
    split at h
    · rename_i hcond
      obtain ⟨ws, q1, q2, hgt, heq⟩ := matchTail_sound h
      have h1 : isWS wA = true ∧ isWS wB = true := by
        simpa [Bool.and_eq_true] using hcond
      exact ⟨wA, wB, ws, q1, q2, h1.1, h1.2, hgt, by rw [heq]⟩
    · cases h
  · cases h


theorem take_mem_takeWhile {p : Char → Bool} {l : List Char} {j : Nat}
    (hj : j ≤ (l.takeWhile p).length) : ∀ c ∈ l.take j, p c = true := by
  intro c hc
  have hsplit : l.take j = (l.takeWhile p).take j := by
    conv_lhs => rw [← List.takeWhile_append_dropWhile (p := p) (l := l)]
    rw [List.take_append_eq_append_take, Nat.sub_eq_zero_of_le hj]
    simp
  rw [hsplit] at hc
  exact List.mem_takeWhile_imp (List.take_subset j (l.takeWhile p) hc)

theorem tryDown_sound : ∀ (rest : List Char) (n : Nat) {mod r2 : List Char},
    tryDown rest n = some (mod, r2) →
    ∃ j, 1 ≤ j ∧ j ≤ n ∧ checkAfterMid (rest.drop j) = some (mod, r2) := by
  intro rest n
  induction n with
  | zero => intro mod r2 h; simp [tryDown] at h
  | succ j ih =>
      intro mod r2 h
      unfold tryDown at h
      split at h
      · rename_i r hc
        injection h with h2
        rw [h2] at hc
        exact ⟨j + 1, by omega, Nat.le_refl (j + 1), hc⟩
      · obtain ⟨j0, h1, h2, h3⟩ := ih h
        exact ⟨j0, h1, Nat.le_succ_of_le h2, h3⟩

theorem tryImp_sound {l mod rest : List Char} (h : tryImp l = some (mod, rest)) :
    ∃ chunk, IsMatchChunk chunk mod ∧ l = chunk ++ rest := by
  unfold tryImp at h
  split at h
  · rename_i c rest1
    split at h
    · rename_i hw
      obtain ⟨j, hj1, hjn, hcam⟩ := tryDown_sound rest1 _ h
      obtain ⟨wA, wB, ws, q1, q2, hwA, hwB, hgt, heq⟩ := checkAfterMid_sound hcam
      have hjlen : j ≤ rest1.length := by
        by_contra hcon
        push_neg at hcon
        have hnil : rest1.drop j = [] := List.drop_eq_nil_iff.mpr (Nat.le_of_lt hcon)
        rw [hnil] at heq
        cases heq
      have hmidlen : (rest1.take j).length = j := by
        rw [List.length_take]
        omega
      have hmidne : rest1.take j ≠ [] := by
        intro he
        rw [he] at hmidlen
        simp at hmidlen
        omega
      have hmidnl : ∀ c2 ∈ rest1.take j, c2 ≠ '\n' := by
        intro c2 hc2
        have hh := take_mem_takeWhile hjn c2 hc2
        simpa using hh
      refine ⟨impShape c (rest1.take j) wA wB ws q1 q2 mod,
        Or.inr ⟨c, rest1.take j, wA, wB, ws, q1, q2, hw, hwA, hwB, hmidne, hmidnl, hgt, rfl⟩, ?_⟩
      have hr : rest1 = rest1.take j ++
          (wA :: 'f' :: 'r' :: 'o' :: 'm' :: wB :: (tailShape ws q1 q2 mod ++ rest)) := by
        conv_lhs => rw [← List.take_append_drop j rest1]
        rw [heq]
      conv_lhs => rw [hr]
      simp [impShape, List.append_assoc]
    · cases h
  · cases h

theorem tryReq_sound {l mod rest : List Char} (h : tryReq l = some (mod, rest)) :
    ∃ chunk, IsMatchChunk chunk mod ∧ l = chunk ++ rest := by
  unfold tryReq at h
  split at h
  · rename_i rest1
    obtain ⟨ws, q1, q2, hgt, heq⟩ := matchTail_sound h
    refine ⟨reqShape ws q1 q2 mod, Or.inl ⟨ws, q1, q2, hgt, rfl⟩, ?_⟩
    rw [heq]
    simp [reqShape, List.append_assoc]
  · cases h

theorem tryMatch_sound {l mod rest : List Char} (h : tryMatch l = some (mod, rest)) :
    ∃ chunk, IsMatchChunk chunk mod ∧ l = chunk ++ rest := by
  unfold tryMatch at h
  split at h
  · rename_i r himp
    injection h with h2
    rw [h2] at himp
    exact tryImp_sound himp
  · exact tryReq_sound h


theorem findMatchesAux_sound : ∀ (fuel : Nat) (l mod : List Char),
    mod ∈ findMatchesAux fuel l → IsJsMatch l mod := by
  intro fuel
  induction fuel with
  | zero => intro l mod h; simp [findMatchesAux] at h
  | succ n ih =>
      intro l mod h
      cases l with
      | nil => simp [findMatchesAux] at h
      | cons c rest =>
          unfold findMatchesAux at h
          split at h
          · rename_i m0 rest2 hm
            rcases List.mem_cons.mp h with rfl | h2
            · obtain ⟨chunk, hch, heq⟩ := tryMatch_sound hm
              exact ⟨[], rest2, chunk, hch, by rw [heq]; simp⟩
            · obtain ⟨l2, r2, chunk, hch, heq⟩ := ih rest2 mod h2
              obtain ⟨chunk0, hc0, heq0⟩ := tryMatch_sound hm
              refine ⟨chunk0 ++ l2, r2, chunk, hch, ?_⟩
              rw [heq0, heq]
              simp [List.append_assoc]
          · obtain ⟨l2, r2, chunk, hch, heq⟩ := ih rest mod h
            refine ⟨c :: l2, r2, chunk, hch, ?_⟩
            rw [heq]
            simp

theorem jsStep_fold_mem : ∀ (l : List (List Char)) (acc : List String) (n : String),
    n ∈ l.foldl jsStep acc →
    n ∈ acc ∨ ∃ mod ∈ l, n = firstSlashSeg (String.mk mod) ∧ startsDot n = false := by
  intro l
  induction l with
  | nil => intro acc n h; exact Or.inl h
  | cons m t ih =>
      intro acc n h
      rw [List.foldl_cons] at h
      rcases ih (jsStep acc m) n h with h0 | ⟨mod, hmem, hn, hd⟩
      · unfold jsStep at h0
        by_cases hdm : startsDot (firstSlashSeg (String.mk m)) = true
        · rw [if_pos hdm] at h0
          exact Or.inl h0
        · rw [if_neg hdm] at h0
          rcases mergeList_mem_iff.mp h0 with h1 | rfl
          · exact Or.inl h1
          · refine Or.inr ⟨m, List.mem_cons_self m t, rfl, ?_⟩
            simpa using hdm
      · exact Or.inr ⟨mod, List.mem_cons_of_mem m hmem, hn, hd⟩

/-- C3: soundness of the JSLike lexical extractor — every recorded name is
the first slash segment of the captured module string of an occurrence of
one of the two regex forms (an `import ... from` with quoted module, or a
`require(` with quoted module) and does not start with a dot; and on the
spec's two examples the relative import is discarded while the subpath
one collapses to its package name. -/
theorem c3_js_lexical_contract :
    (∀ (text : String) (n : String), n ∈ jsModsOfText text →
        ∃ mod, IsJsMatch text.toList mod ∧ n = firstSlashSeg (String.mk mod) ∧
          startsDot n = false) ∧
      extract_js_imports (Except.ok "import x from './local'") = Except.ok [] ∧
      extract_js_imports (Except.ok "import x from 'lodash/fp'") = Except.ok ["lodash"] := by
  refine ⟨?_, ?_, ?_⟩
  · intro text n h
    unfold jsModsOfText at h
    rcases jsStep_fold_mem (findMatches text.toList) [] n h with h0 | ⟨mod, hmem, hn, hd⟩
    · simp at h0
    · exact ⟨mod, findMatchesAux_sound text.toList.length text.toList mod hmem, hn, hd⟩
  · exact congrArg Except.ok (by decide)
  · exact congrArg Except.ok (by decide)

theorem c3_js_lexical_contract_witness :
    ∃ mod, IsJsMatch ("const y = require('x')".toList) mod ∧
      "x" = firstSlashSeg (String.mk mod) ∧ startsDot "x" = false :=
  c3_js_lexical_contract.1 "const y = require('x')" "x" (by decide)

end DependencyScanner
